import Mathlib

/-!
Shallow embedding of the AWS resource tagging script (`src/index/index.ts`).

JavaScript objects used as string-keyed maps are modelled as
insertion-ordered association lists (`Obj α`).  Property assignment
(`obj[k] = v`) overwrites the value in place when the key is present and
appends a new entry otherwise; object spread (`{...e, ...d}`) replays the
assignments of `d` on top of a copy of `e`.  A JS `Map` has the same
set-semantics, so the aggregation in `getAllResources` reuses `objSet`.
-/

/-- A JavaScript object with string keys: insertion-ordered entry list. -/
abbrev Obj (α : Type) := List (String × α)

/-- JS property assignment `m[k] = v`: overwrite in place when `k` is
present, append otherwise. -/
def objSet {α : Type} (m : Obj α) (k : String) (v : α) : Obj α :=
  if m.any (fun p => p.1 == k) then
    m.map (fun p => if p.1 == k then (k, v) else p)
  else
    m ++ [(k, v)]

/-- JS object spread `{...e, ...d}`: replay each entry of `d` as an
assignment on top of `e`. -/
def objSpread {α : Type} (e d : Obj α) : Obj α :=
  d.foldl (fun m p => objSet m p.1 p.2) e

/-- The keys of an object, in entry order. -/
def keysOf {α : Type} (m : Obj α) : List String :=
  m.map Prod.fst

/-- JS property read `m[k]`: value of the (first) entry with key `k`. -/
def lookupObj {α : Type} (m : Obj α) (k : String) : Option α :=
  (m.find? (fun p => p.1 == k)).map Prod.snd

/-- Value of the LAST entry of key `k` in an entry list: the value that
wins when the list is replayed as a sequence of assignments. -/
def lastVal {α : Type} : Obj α → String → Option α
  | [], _ => none
  | p :: d, k => (lastVal d k).or (if p.1 == k then some p.2 else none)

/-- The pointwise effect of assigning `k ↦ v` on one entry. -/
def setVal {α : Type} (k : String) (v : α) (p : String × α) : String × α :=
  if p.1 == k then (k, v) else p

/-- Tag maps: JS objects with string values, as built by the discoverers'
`tags[tag.Key] = tag.Value` loops. -/
abbrev Tags := Obj String

/-- The `newTags` constant: the desired tags applied to all resources
(index.ts line 66). -/
def newTags : Tags :=
  [("Owner", ""), ("ApplicationOwner", ""), ("CostAllocation", "International"),
   ("CostRegion", "International"), ("Environment", "Production"), ("Product", "")]

/-- The hardcoded mode flag (index.ts line 77): apply tags to all
discovered resources rather than only those missing a required tag. -/
def tagExistingResourcesWithTags : Bool := true

/-- The merge performed by `tagResource` before dispatching
(index.ts line 1068): `{ ...resource.existingTags, ...newTags }`. -/
def mergedTags (existingTags : Tags) : Tags :=
  objSpread existingTags newTags

/-!
## Discovery and aggregation (`getAllResources`)
-/

/-- A discovered resource (interface `ResourceWithTags`, index.ts line 79). -/
structure ResourceWithTags where
  resourceArn : String
  resourceId : Option String
  resourceType : String
  existingTags : Tags
  region : String
deriving DecidableEq

/-- The per-locality aggregation of `getAllResources` (index.ts lines
1477-1494): insert every concatenated discoverer record into a `Map`
keyed by `resourceArn` (a later `set` with the same key overwrites), then
take the map's values in insertion order. -/
def dedupeByArn (rs : List ResourceWithTags) : List ResourceWithTags :=
  (rs.foldl (fun m r => objSet m r.resourceArn r) []).map Prod.snd

/-- The entry a record contributes to the per-region map. -/
def toArnPair (r : ResourceWithTags) : String × ResourceWithTags :=
  (r.resourceArn, r)

/-- The last record with a given ARN in a discoverer-output list: the one
whose `Map.set` wins. -/
def lastRecordWith (rs : List ResourceWithTags) (a : String) : Option ResourceWithTags :=
  lastVal (rs.map toArnPair) a

/-- The ten per-region discoverer outputs gathered by `getAllResources`
(index.ts lines 1461-1472), after their internal catch blocks (each
discoverer returns a list, never throws). -/
structure RegionOutputs where
  taggingApiResources : List ResourceWithTags
  ec2Instances : List ResourceWithTags
  securityGroups : List ResourceWithTags
  subnets : List ResourceWithTags
  vpcs : List ResourceWithTags
  rdsInstances : List ResourceWithTags
  rdsClusters : List ResourceWithTags
  lambdaFunctions : List ResourceWithTags
  eksClusters : List ResourceWithTags
  lightsailResources : List ResourceWithTags

/-- A region batch with no discoverer output. -/
def RegionOutputs.empty : RegionOutputs :=
  ⟨[], [], [], [], [], [], [], [], [], []⟩

/-- The concatenation order of index.ts lines 1479-1490: the generic
Tagging-API results first, then each specific discoverer's results. -/
def RegionOutputs.concatenated (o : RegionOutputs) : List ResourceWithTags :=
  o.taggingApiResources ++ o.ec2Instances ++ o.securityGroups ++ o.subnets
    ++ o.vpcs ++ o.rdsInstances ++ o.rdsClusters ++ o.lambdaFunctions
    ++ o.eksClusters ++ o.lightsailResources

/-- `getAllResources` (index.ts lines 1406-1514): the global IAM and S3
lists are pushed onto `allResources` as-is; every region then contributes
the values of its own de-duplicated `Map`.  (Within a batch, regions
complete in arbitrary order; the multiset of records is modelled in
region-list order.) -/
def getAllResources (iamRoles iamUsers iamPolicies s3Buckets : List ResourceWithTags)
    (regions : List String) (fetchRegion : String → RegionOutputs) :
    List ResourceWithTags :=
  iamRoles ++ iamUsers ++ iamPolicies ++ s3Buckets
    ++ (regions.map (fun r => dedupeByArn (fetchRegion r).concatenated)).flatten

/-- The S3 discoverer's record for bucket `b1` (getS3Buckets,
index.ts lines 275-281). -/
def cexS3Record : ResourceWithTags :=
  ⟨"arn:aws:s3:::b1", some "b1", "s3-bucket", [], "us-east-1"⟩

/-- The generic Tagging-API discoverer's record for the same bucket in
region us-east-1 (getResourcesFromTaggingAPI, index.ts lines 190-195):
same ARN, no short id, kind inferred from the ARN. -/
def cexTaggingApiRecord : ResourceWithTags :=
  ⟨"arn:aws:s3:::b1", none, "s3", [], "us-east-1"⟩

/-!
## The retrying tag-apply step (`tagResource`)
-/

/-- The default `retries` parameter of `tagResource` (index.ts line 1066). -/
def tagResourceRetries : Nat := 3

/-- The retry loop of `tagResource` (index.ts lines 1070-1145):
attempt numbers run upward from `attempt`; `fuel` is the number of loop
iterations left (`retries - attempt + 1`).  A successful dispatch returns
`true` at once; a failure on the final attempt returns `false`; any other
failure backs off and retries.  `outcome n` says whether the dispatch
succeeds on attempt `n`.  Returns the result and the list of attempt
numbers on which the operation was invoked. -/
def tagAttemptLoop (outcome : Nat → Bool) : Nat → Nat → Bool × List Nat
  | 0, _ => (false, [])
  | fuel + 1, attempt =>
    if outcome attempt then (true, [attempt])
    else if fuel = 0 then (false, [attempt])
    else
      let r := tagAttemptLoop outcome fuel (attempt + 1)
      (r.1, attempt :: r.2)

/-- `tagResource` with the default retry count: attempts start at 1. -/
def tagResource (outcome : Nat → Bool) : Bool × List Nat :=
  tagAttemptLoop outcome tagResourceRetries 1

/-!
## The orchestrator (`processAllResources`)
-/

/-- `getResourcesNeedingTags` (index.ts lines 144-156): keep the resources
missing at least one required tag key. -/
def getResourcesNeedingTags (resources : List ResourceWithTags) : List ResourceWithTags :=
  resources.filter (fun resource =>
    decide (0 < ((keysOf newTags).filter
      (fun tagKey => !((keysOf resource.existingTags).contains tagKey))).length))

/-- Observable outcome of one run of `processAllResources`
(index.ts lines 1519-1601): a fatal abort (`process.exit(1)` from the
catch block, no summary), the early return when nothing is to be tagged
(logs "All resources are already properly tagged!", no summary block), or
the final summary (success count, failure count, failed-resource lines).
The elapsed-seconds figure is wall-clock time, outside the model. -/
inductive RunResult where
  | aborted (exitCode : Nat)
  | completedNoSummary
  | summary (successCount failureCount : Nat) (failedLines : List String)
deriving DecidableEq

/-- `processAllResources`: `regionsResult` is the outcome of
`getAllRegions` (index.ts lines 128-139; it has no catch, so a thrown
error propagates to the top-level catch, which exits 1); `tagOutcome r n`
says whether the tag dispatch for `r` succeeds on attempt `n`. -/
def processAllResources (regionsResult : Except String (List String))
    (iamRoles iamUsers iamPolicies s3Buckets : List ResourceWithTags)
    (fetchRegion : String → RegionOutputs)
    (tagOutcome : ResourceWithTags → Nat → Bool) : RunResult :=
  match regionsResult with
  | .error _ => .aborted 1
  | .ok regions =>
    let allResources :=
      getAllResources iamRoles iamUsers iamPolicies s3Buckets regions fetchRegion
    let resourcesToTag :=
      if tagExistingResourcesWithTags then allResources
      else getResourcesNeedingTags allResources
    if resourcesToTag.length = 0 then
      .completedNoSummary
    else
      let results := resourcesToTag.map (fun r => (r, (tagResource (tagOutcome r)).1))
      .summary (results.filter (fun p => p.2)).length
        (results.filter (fun p => !p.2)).length
        ((results.filter (fun p => !p.2)).map
          (fun p => "Failed to tag: " ++ p.1.resourceArn))

/-!
## EC2 discovery (`getEC2Instances`)
-/

/-- JS truthiness of an optional string: `undefined` and `""` are falsy. -/
def strTruthy : Option String → Bool
  | none => false
  | some s => !(s == "")

/-- A raw tag as listed by the provider (Key/Value possibly absent). -/
structure EC2Tag where
  key : Option String
  value : Option String
deriving DecidableEq

/-- A listed EC2 instance: id, state name (absent when `State` is
undefined) and raw tags. -/
structure EC2Instance where
  instanceId : Option String
  stateName : Option String
  tags : List EC2Tag
deriving DecidableEq

/-- One reservation of a DescribeInstances page. -/
structure Reservation where
  instances : List EC2Instance
deriving DecidableEq

/-- One page answer of the paginated DescribeInstances call: reservations
plus the continuation token, or a thrown error. -/
inductive EC2Page where
  | ok (reservations : List Reservation) (next : Option Nat)
  | err

/-- The discoverers' tag-extraction loop (index.ts lines 318-325):
`if (tag.Key && tag.Value && !tag.Key.startsWith("aws:")) tags[tag.Key] = tag.Value`. -/
def extractTags (raw : List EC2Tag) : Tags :=
  raw.foldl (fun tags tag =>
    if strTruthy tag.key && strTruthy tag.value
        && !((tag.key.getD "").startsWith "aws:") then
      objSet tags (tag.key.getD "") (tag.value.getD "")
    else tags) []

/-- The guard of index.ts lines 314-317:
`instance.InstanceId && instance.State?.Name !== "terminated"`. -/
def keepInstance (i : EC2Instance) : Bool :=
  strTruthy i.instanceId && !(i.stateName == some "terminated")

/-- The record pushed for a kept instance (index.ts lines 327-333). -/
def mkEC2Record (region accountId : String) (i : EC2Instance) : ResourceWithTags :=
  { resourceArn := "arn:aws:ec2:" ++ region ++ ":" ++ accountId
      ++ ":instance/" ++ (i.instanceId.getD "")
  , resourceId := i.instanceId
  , resourceType := "ec2"
  , existingTags := extractTags i.tags
  , region := region }

/-- The double loop over one page's reservations and instances
(index.ts lines 310-338). -/
def processReservations (region accountId : String)
    (reservations : List Reservation) : List ResourceWithTags :=
  (reservations.flatMap (fun rv => rv.instances)).filterMap
    (fun i => if keepInstance i then some (mkEC2Record region accountId i) else none)

/-- The pagination loop of `getEC2Instances` (index.ts lines 305-344):
accumulate each page's records; a thrown error logs and `break`s,
returning what was accumulated so far.  `fuel` bounds the iterations so
the model is total. -/
def getEC2Instances (fetch : Option Nat → EC2Page) (region accountId : String) :
    Nat → Option Nat → List ResourceWithTags → List ResourceWithTags
  | 0, _, acc => acc
  | fuel + 1, tok, acc =>
    match fetch tok with
    | .err => acc
    | .ok reservations next =>
      match next with
      | none => acc ++ processReservations region accountId reservations
      | some t => getEC2Instances fetch region accountId fuel (some t)
          (acc ++ processReservations region accountId reservations)

/-- A running instance used by concrete scenarios. -/
def cexRunningInstance : EC2Instance := ⟨some "i-1", some "running", []⟩

/-- A fetch whose first page succeeds with one running instance and whose
second page throws. -/
def cexMidFailFetch : Option Nat → EC2Page
  | none => .ok [⟨[cexRunningInstance]⟩] (some 0)
  | some _ => .err

/-!
## The account-id cache (`getAccountId`)
-/

/-- `response.Account || "unknown"` (index.ts line 117): an absent or
empty Account field becomes "unknown". -/
def jsOrUnknown : Option String → String
  | some s => if s == "" then "unknown" else s
  | none => "unknown"

/-- One call to `getAccountId` (index.ts lines 105-123) acting on the
module-level cache `cachedAccountId`: a truthy cache is returned as-is
with no fetch; otherwise one STS fetch happens (`fetchResult`) — on
success `Account || "unknown"` is cached and returned, on a thrown error
"unknown" is returned and the cache is left unchanged.  Result:
(returned value, new cache, whether a provider fetch occurred). -/
def getAccountIdStep (cached : Option String)
    (fetchResult : Except Unit (Option String)) : String × Option String × Bool :=
  if strTruthy cached then (cached.getD "unknown", cached, false)
  else
    match fetchResult with
    | .ok account => (jsOrUnknown account, some (jsOrUnknown account), true)
    | .error _ => ("unknown", cached, true)

/-- A sequence of sequential calls to `getAccountId`; `provider i` is the
result of the i-th STS fetch (0-indexed).  Returns (values returned to
the callers, final cache, total number of provider fetches). -/
def runGetAccountId (provider : Nat → Except Unit (Option String)) :
    Nat → Option String → Nat → List String × Option String × Nat
  | 0, cached, fetches => ([], cached, fetches)
  | calls + 1, cached, fetches =>
    let step := getAccountIdStep cached (provider fetches)
    let rest := runGetAccountId provider calls step.2.1
      (if step.2.2 then fetches + 1 else fetches)
    (step.1 :: rest.1, rest.2)

/-- An STS whose first call throws and whose second call succeeds. -/
def cexStsProvider : Nat → Except Unit (Option String) :=
  fun i => if i = 0 then .error () else .ok (some "123456789012")

/-! ## Theorems -/

section ObjLemmas

variable {α : Type}

theorem any_key_iff (m : Obj α) (k : String) :
    (m.any (fun p => p.1 == k)) = true ↔ k ∈ keysOf m := by
  rw [List.any_eq_true]
  constructor
  · rintro ⟨p, hp, hpk⟩
    have hp1 : p.1 = k := by simpa using hpk
    exact hp1 ▸ List.mem_map.mpr ⟨p, hp, rfl⟩
  · intro h
    obtain ⟨p, hp, hpk⟩ := List.mem_map.mp h
    exact ⟨p, hp, by simp [hpk]⟩

theorem objSet_of_mem {m : Obj α} {k : String} (v : α) (h : k ∈ keysOf m) :
    objSet m k v = m.map (setVal k v) := by
  unfold objSet
  rw [if_pos ((any_key_iff m k).mpr h)]
  rfl

theorem objSet_of_not_mem {m : Obj α} {k : String} (v : α) (h : k ∉ keysOf m) :
    objSet m k v = m ++ [(k, v)] := by
  unfold objSet
  rw [if_neg (fun hc => h ((any_key_iff m k).mp hc))]

theorem setVal_of_eq {k : String} (v : α) {p : String × α} (h : p.1 = k) :
    setVal k v p = (k, v) := by
  unfold setVal
  rw [if_pos (by simp [h])]

theorem setVal_of_ne {k : String} (v : α) {p : String × α} (h : p.1 ≠ k) :
    setVal k v p = p := by
  unfold setVal
  rw [if_neg (fun hc => h (by simpa using hc))]

theorem fst_setVal (k : String) (v : α) (p : String × α) :
    (setVal k v p).1 = p.1 := by
  by_cases h : p.1 = k
  · rw [setVal_of_eq v h, h]
  · rw [setVal_of_ne v h]

theorem keysOf_map_setVal (m : Obj α) (k : String) (v : α) :
    keysOf (m.map (setVal k v)) = keysOf m := by
  unfold keysOf
  rw [List.map_map]
  exact List.map_congr_left (fun p _ => fst_setVal k v p)

theorem keysOf_objSet (m : Obj α) (k : String) (v : α) :
    keysOf (objSet m k v) = if k ∈ keysOf m then keysOf m else keysOf m ++ [k] := by
  by_cases h : k ∈ keysOf m
  · rw [objSet_of_mem v h, if_pos h, keysOf_map_setVal]
  · rw [objSet_of_not_mem v h, if_neg h]
    simp [keysOf]

theorem mem_keysOf_objSet (m : Obj α) (k k' : String) (v : α) :
    k' ∈ keysOf (objSet m k v) ↔ k' ∈ keysOf m ∨ k' = k := by
  rw [keysOf_objSet]
  by_cases h : k ∈ keysOf m
  · rw [if_pos h]
    constructor
    · exact Or.inl
    · rintro (h' | rfl)
      · exact h'
      · exact h
  · rw [if_neg h]
    simp

theorem lookupObj_cons (p : String × α) (d : Obj α) (k : String) :
    lookupObj (p :: d) k = if p.1 == k then some p.2 else lookupObj d k := by
  unfold lookupObj
  by_cases h : (p.1 == k) = true
  · rw [List.find?_cons_of_pos d h, if_pos h]
    rfl
  · rw [List.find?_cons_of_neg d h, if_neg h]

theorem lookupObj_objSet (m : Obj α) (k k' : String) (v : α) :
    lookupObj (objSet m k v) k' = if k' = k then some v else lookupObj m k' := by
  by_cases hmem : k ∈ keysOf m
  · rw [objSet_of_mem v hmem]
    have hpred : ((fun p : String × α => p.1 == k') ∘ setVal k v)
        = fun p : String × α => p.1 == k' := by
      funext q
      show ((setVal k v q).1 == k') = (q.1 == k')
      rw [fst_setVal]
    by_cases hk : k' = k
    · subst hk
      rw [if_pos rfl]
      unfold lookupObj
      rw [List.find?_map, hpred]
      have h1 : (m.find? (fun p => p.1 == k')).isSome = true := by
        rw [List.find?_isSome]
        obtain ⟨p, hp, hpk⟩ := List.mem_map.mp hmem
        exact ⟨p, hp, by simp [hpk]⟩
      obtain ⟨q, hq⟩ := Option.isSome_iff_exists.mp h1
      rw [hq]
      have hqk : (q.1 == k') = true := by simpa using List.find?_some hq
      show some (setVal k' v q).2 = some v
      unfold setVal
      rw [if_pos hqk]
    · rw [if_neg hk]
      unfold lookupObj
      rw [List.find?_map, hpred]
      cases hfind : m.find? (fun p => p.1 == k') with
      | none => rfl
      | some q =>
        have hq1 : q.1 = k' := by simpa using List.find?_some hfind
        have hfix : setVal k v q = q :=
          setVal_of_ne v (fun hc => hk (hq1.symm.trans hc))
        show some (setVal k v q).2 = some q.2
        rw [hfix]
  · rw [objSet_of_not_mem v hmem]
    unfold lookupObj
    rw [List.find?_append]
    by_cases hk : k' = k
    · subst hk
      have hnone : m.find? (fun p : String × α => p.1 == k') = none := by
        rw [List.find?_eq_none]
        intro p hp hc
        have hpk : p.1 = k' := by simpa using hc
        exact hmem (hpk ▸ List.mem_map.mpr ⟨p, hp, rfl⟩)
      rw [hnone, Option.none_or, if_pos rfl]
      have hpos : (((k', v) : String × α).1 == k') = true := by simp
      have hone : List.find? (fun p : String × α => p.1 == k') [(k', v)] = some (k', v) :=
        List.find?_cons_of_pos [] hpos
      rw [hone]
      rfl
    · rw [if_neg hk]
      have hone : List.find? (fun p : String × α => p.1 == k') [(k, v)] = none := by
        rw [List.find?_eq_none]
        intro p hp hc
        have hpv : p = (k, v) := by simpa using hp
        subst hpv
        have hkk : k = k' := by simpa using hc
        exact hk hkk.symm
      rw [hone, Option.or_none]

theorem lookupObj_eq_none_iff (m : Obj α) (k : String) :
    lookupObj m k = none ↔ k ∉ keysOf m := by
  unfold lookupObj
  rw [Option.map_eq_none']
  constructor
  · intro hfind hmem
    obtain ⟨p, hp, hpk⟩ := List.mem_map.mp hmem
    have := List.find?_eq_none.mp hfind p hp
    simp [hpk] at this
  · intro hmem
    rw [List.find?_eq_none]
    intro p hp hc
    exact hmem (List.mem_map.mpr ⟨p, hp, by simpa using hc⟩)

theorem objSpread_nil (e : Obj α) : objSpread e [] = e := rfl

theorem objSpread_cons (e : Obj α) (p : String × α) (d : Obj α) :
    objSpread e (p :: d) = objSpread (objSet e p.1 p.2) d := rfl

theorem objSpread_append (e d₁ d₂ : Obj α) :
    objSpread e (d₁ ++ d₂) = objSpread (objSpread e d₁) d₂ :=
  List.foldl_append _ _ _ _

theorem mem_keysOf_objSpread (e d : Obj α) (k : String) :
    k ∈ keysOf (objSpread e d) ↔ k ∈ keysOf e ∨ k ∈ keysOf d := by
  induction d generalizing e with
  | nil => simp [objSpread_nil, keysOf]
  | cons p d ih =>
    rw [objSpread_cons, ih, mem_keysOf_objSet]
    simp only [keysOf, List.map_cons, List.mem_cons]
    tauto

theorem lookupObj_objSpread (e d : Obj α) (k : String) :
    lookupObj (objSpread e d) k = (lastVal d k).or (lookupObj e k) := by
  induction d generalizing e with
  | nil => simp [objSpread_nil, lastVal]
  | cons p d ih =>
    rw [objSpread_cons, ih, lookupObj_objSet]
    show _ = ((lastVal d k).or (if p.1 == k then some p.2 else none)).or _
    rw [Option.or_assoc]
    cases lastVal d k with
    | some v => simp
    | none =>
      rw [Option.none_or, Option.none_or]
      by_cases hk : (p.1 == k) = true
      · have hp : p.1 = k := by simpa using hk
        rw [if_pos hk, if_pos hp.symm]
        rfl
      · rw [if_neg hk, if_neg (fun hc : k = p.1 => hk (by simp [hc]))]
        rw [Option.none_or]

theorem lastVal_eq_none_of_not_mem {d : Obj α} {k : String} (h : k ∉ keysOf d) :
    lastVal d k = none := by
  induction d with
  | nil => rfl
  | cons p d ih =>
    simp only [keysOf, List.map_cons, List.mem_cons, not_or] at h
    have hcond : ¬((p.1 == k) = true) := by
      intro hc
      have hp : p.1 = k := by simpa using hc
      exact h.1 hp.symm
    unfold lastVal
    rw [ih (by simpa [keysOf] using h.2), if_neg hcond]
    rfl

theorem lastVal_eq_lookupObj {d : Obj α} (h : (keysOf d).Nodup) (k : String) :
    lastVal d k = lookupObj d k := by
  induction d with
  | nil => rfl
  | cons p d ih =>
    simp only [keysOf, List.map_cons, List.nodup_cons] at h
    unfold lastVal
    rw [ih h.2, lookupObj_cons]
    by_cases hk : (p.1 == k) = true
    · simp only [if_pos hk]
      have hp : p.1 = k := by simpa using hk
      have hnone : lookupObj d k = none :=
        (lookupObj_eq_none_iff d k).mpr (by rw [← hp]; simpa [keysOf] using h.1)
      rw [hnone, Option.none_or]
    · simp only [if_neg hk]
      rw [Option.or_none]

theorem nodup_keysOf_objSet {m : Obj α} (k : String) (v : α)
    (h : (keysOf m).Nodup) : (keysOf (objSet m k v)).Nodup := by
  rw [keysOf_objSet]
  by_cases hmem : k ∈ keysOf m
  · rw [if_pos hmem]
    exact h
  · rw [if_neg hmem]
    simp [List.nodup_append, h, hmem]

theorem nodup_keysOf_objSpread {e : Obj α} (d : Obj α)
    (h : (keysOf e).Nodup) : (keysOf (objSpread e d)).Nodup := by
  induction d generalizing e with
  | nil => exact h
  | cons p d ih =>
    rw [objSpread_cons]
    exact ih (nodup_keysOf_objSet p.1 p.2 h)

theorem entry_at_key_objSet (m : Obj α) (k : String) (v : α) :
    ∀ q ∈ objSet m k v, q.1 = k → q = (k, v) := by
  intro q hq hqk
  by_cases hmem : k ∈ keysOf m
  · rw [objSet_of_mem v hmem] at hq
    obtain ⟨q', hq', hfq⟩ := List.mem_map.mp hq
    by_cases hq'k : q'.1 = k
    · rw [setVal_of_eq v hq'k] at hfq
      exact hfq.symm
    · rw [setVal_of_ne v hq'k] at hfq
      subst hfq
      exact absurd hqk hq'k
  · rw [objSet_of_not_mem v hmem] at hq
    rcases List.mem_append.mp hq with hq | hq
    · exact absurd (hqk ▸ List.mem_map.mpr ⟨q, hq, rfl⟩) hmem
    · simpa using hq

theorem entry_at_key_objSet_other {m : Obj α} {k : String} {w : α} (k₂ : String) (v₂ : α)
    (hne : k₂ ≠ k) (h : ∀ q ∈ m, q.1 = k → q = (k, w)) :
    ∀ q ∈ objSet m k₂ v₂, q.1 = k → q = (k, w) := by
  intro q hq hqk
  by_cases hmem : k₂ ∈ keysOf m
  · rw [objSet_of_mem v₂ hmem] at hq
    obtain ⟨q', hq', hfq⟩ := List.mem_map.mp hq
    by_cases hq'k : q'.1 = k₂
    · rw [setVal_of_eq v₂ hq'k] at hfq
      subst hfq
      exact absurd hqk hne
    · rw [setVal_of_ne v₂ hq'k] at hfq
      subst hfq
      exact h q' hq' hqk
  · rw [objSet_of_not_mem v₂ hmem] at hq
    rcases List.mem_append.mp hq with hq | hq
    · exact h q hq hqk
    · have hqv : q = (k₂, v₂) := by simpa using hq
      subst hqv
      exact absurd hqk hne

theorem entry_at_key_objSpread {m : Obj α} {k : String} {w : α} (d : Obj α)
    (hd : k ∉ keysOf d) (h : ∀ q ∈ m, q.1 = k → q = (k, w)) :
    ∀ q ∈ objSpread m d, q.1 = k → q = (k, w) := by
  induction d generalizing m with
  | nil => exact h
  | cons p d ih =>
    simp only [keysOf, List.map_cons, List.mem_cons, not_or] at hd
    rw [objSpread_cons]
    exact ih (by simpa [keysOf] using hd.2)
      (entry_at_key_objSet_other p.1 p.2 (fun hc => hd.1 hc.symm) h)

theorem setVal_setVal (k : String) (u v : α) (p : String × α) :
    setVal k u (setVal k v p) = setVal k u p := by
  by_cases h : p.1 = k
  · rw [setVal_of_eq v h, setVal_of_eq u h,
      setVal_of_eq u (show ((k, v) : String × α).1 = k from rfl)]
  · rw [setVal_of_ne v h]

theorem setVal_comm {k k₂ : String} (hne : k ≠ k₂) (v u : α) (p : String × α) :
    setVal k₂ u (setVal k v p) = setVal k v (setVal k₂ u p) := by
  by_cases h : p.1 = k
  · have h2 : p.1 ≠ k₂ := fun hc => hne (h ▸ hc)
    rw [setVal_of_eq v h, setVal_of_ne u (show (k, v).1 ≠ k₂ from hne)]
    rw [setVal_of_ne u h2, setVal_of_eq v h]
  · by_cases h2 : p.1 = k₂
    · rw [setVal_of_ne v h, setVal_of_eq u h2]
      rw [setVal_of_ne v (show ((k₂, u) : String × α).1 ≠ k from fun hc => hne hc.symm)]
    · rw [setVal_of_ne v h, setVal_of_ne u h2, setVal_of_ne v h]

theorem objSpread_map_setVal {k : String} (B : Obj α) (m : Obj α) (v' : α)
    (hm : k ∈ keysOf m) (hB : k ∈ keysOf B) :
    objSpread (m.map (setVal k v')) B = objSpread m B := by
  induction B generalizing m with
  | nil => simp [keysOf] at hB
  | cons p B ih =>
    obtain ⟨k₂, u⟩ := p
    rw [objSpread_cons, objSpread_cons]
    by_cases hk2 : k₂ = k
    · subst hk2
      have hm' : k₂ ∈ keysOf (m.map (setVal k₂ v')) := by
        rw [keysOf_map_setVal]
        exact hm
      show objSpread (objSet (m.map (setVal k₂ v')) k₂ u) B = objSpread (objSet m k₂ u) B
      rw [objSet_of_mem u hm', objSet_of_mem u hm, List.map_map]
      have hcomp : (setVal k₂ u ∘ setVal k₂ v') = setVal k₂ u := by
        funext q
        exact setVal_setVal k₂ u v' q
      rw [hcomp]
    · have hB' : k ∈ keysOf B := by
        simp only [keysOf, List.map_cons, List.mem_cons] at hB
        rcases hB with hB | hB
        · exact absurd hB.symm hk2
        · exact hB
      show objSpread (objSet (m.map (setVal k v')) k₂ u) B = objSpread (objSet m k₂ u) B
      by_cases hmem : k₂ ∈ keysOf m
      · have hmem' : k₂ ∈ keysOf (m.map (setVal k v')) := by
          rw [keysOf_map_setVal]
          exact hmem
        rw [objSet_of_mem u hmem', objSet_of_mem u hmem, List.map_map]
        have hcomm : (setVal k₂ u ∘ setVal k v') = (setVal k v') ∘ (setVal k₂ u) := by
          funext q
          exact setVal_comm (fun hc => hk2 hc.symm) v' u q
        rw [hcomm, ← List.map_map]
        exact ih (m.map (setVal k₂ u)) (by rw [keysOf_map_setVal]; exact hm) hB'
      · have hmem' : k₂ ∉ keysOf (m.map (setVal k v')) := by
          rw [keysOf_map_setVal]
          exact hmem
        rw [objSet_of_not_mem u hmem', objSet_of_not_mem u hmem]
        have happ : m.map (setVal k v') ++ [(k₂, u)]
            = (m ++ [(k₂, u)]).map (setVal k v') := by
          rw [List.map_append]
          congr 1
          simp only [List.map_cons, List.map_nil]
          unfold setVal
          rw [if_neg (fun hc : ((k₂, u).1 == k) = true => hk2 (by simpa using hc))]
        rw [happ]
        refine ih (m ++ [(k₂, u)]) ?_ hB'
        show k ∈ keysOf (m ++ [(k₂, u)])
        unfold keysOf
        rw [List.map_append]
        exact List.mem_append.mpr (Or.inl hm)

theorem objSpread_replay (B A e : Obj α) :
    objSpread (objSpread e (A ++ B)) B = objSpread e (A ++ B) := by
  induction B generalizing A with
  | nil => rfl
  | cons p B ih =>
    obtain ⟨k, v⟩ := p
    have hassoc : A ++ (k, v) :: B = (A ++ [(k, v)]) ++ B := by
      rw [List.append_assoc]
      rfl
    have hIH : objSpread (objSpread e (A ++ (k, v) :: B)) B
        = objSpread e (A ++ (k, v) :: B) := by
      rw [hassoc]
      exact ih (A ++ [(k, v)])
    set M := objSpread e (A ++ (k, v) :: B) with hM
    rw [objSpread_cons]
    show objSpread (objSet M k v) B = M
    have hkM : k ∈ keysOf M := by
      rw [hM, mem_keysOf_objSpread]
      right
      simp [keysOf]
    by_cases hkB : k ∈ keysOf B
    · rw [objSet_of_mem v hkM]
      rw [objSpread_map_setVal B M v hkM hkB]
      exact hIH
    · have hMdecomp : M = objSpread (objSet (objSpread e A) k v) B := by
        rw [hM, objSpread_append, objSpread_cons]
      have hentry : ∀ q ∈ M, q.1 = k → q = (k, v) := by
        rw [hMdecomp]
        exact entry_at_key_objSpread B hkB (entry_at_key_objSet (objSpread e A) k v)
      have hfix : objSet M k v = M := by
        rw [objSet_of_mem v hkM]
        have hid : ∀ q ∈ M, setVal k v q = q := by
          intro q hq
          unfold setVal
          by_cases hqk : (q.1 == k) = true
          · rw [if_pos hqk]
            exact (hentry q hq (by simpa using hqk)).symm
          · rw [if_neg hqk]
        rw [List.map_congr_left hid, List.map_id']
      rw [hfix]
      exact hIH

end ObjLemmas

/-- C1: the union-overwrite merge `{...E, ...D}` sets every key of `D` to
`D`'s value (so its entries are a superset of `D`'s pairs) and preserves
every non-colliding key of `E` with `E`'s value. -/
theorem unionOverwrite_correct (E D : Tags) (hD : (keysOf D).Nodup) :
    (∀ k v, lookupObj D k = some v → lookupObj (objSpread E D) k = some v) ∧
    (∀ k, k ∉ keysOf D → lookupObj (objSpread E D) k = lookupObj E k) := by
  constructor
  · intro k v hkv
    rw [lookupObj_objSpread, lastVal_eq_lookupObj hD, hkv]
    rfl
  · intro k hk
    rw [lookupObj_objSpread, lastVal_eq_none_of_not_mem hk]
    rfl

theorem unionOverwrite_correct_witness :
    (keysOf newTags).Nodup ∧
    lookupObj (objSpread [("Name", "a"), ("Owner", "old")] newTags) "Owner" = some "" ∧
    lookupObj (objSpread [("Name", "a"), ("Owner", "old")] newTags) "Name" = some "a" := by
  refine ⟨by decide, ?_, ?_⟩
  · exact (unionOverwrite_correct [("Name", "a"), ("Owner", "old")] newTags (by decide)).1
      "Owner" "" (by decide)
  · rw [(unionOverwrite_correct [("Name", "a"), ("Owner", "old")] newTags (by decide)).2
      "Name" (by decide)]
    decide

/-- C2: the union-overwrite target computation is idempotent:
`computeTarget(computeTarget(E,D),D) = computeTarget(E,D)` where
`computeTarget` is the spread merge `{...E, ...D}` of index.ts line 1068. -/
theorem unionOverwrite_idempotent (E D : Tags) :
    objSpread (objSpread E D) D = objSpread E D := by
  have h := objSpread_replay D [] E
  simpa using h

theorem dedupeByArn_eq_spread (rs : List ResourceWithTags) :
    dedupeByArn rs = (objSpread [] (rs.map toArnPair)).map Prod.snd := by
  unfold dedupeByArn objSpread
  rw [List.foldl_map]
  rfl

section AggLemmas

variable {α : Type}

theorem mem_objSet_cases (m : Obj α) (k : String) (v : α) :
    ∀ q ∈ objSet m k v, q ∈ m ∨ q = (k, v) := by
  intro q hq
  by_cases hmem : k ∈ keysOf m
  · rw [objSet_of_mem v hmem] at hq
    obtain ⟨q', hq', hfq⟩ := List.mem_map.mp hq
    by_cases hq'k : q'.1 = k
    · rw [setVal_of_eq v hq'k] at hfq
      exact Or.inr hfq.symm
    · rw [setVal_of_ne v hq'k] at hfq
      exact Or.inl (hfq ▸ hq')
  · rw [objSet_of_not_mem v hmem] at hq
    rcases List.mem_append.mp hq with hq | hq
    · exact Or.inl hq
    · exact Or.inr (by simpa using hq)

theorem mem_objSpread_cases (e d : Obj α) :
    ∀ q ∈ objSpread e d, q ∈ e ∨ q ∈ d := by
  induction d generalizing e with
  | nil => exact fun q hq => Or.inl hq
  | cons p d ih =>
    intro q hq
    rw [objSpread_cons] at hq
    rcases ih (objSet e p.1 p.2) q hq with hq' | hq'
    · rcases mem_objSet_cases e p.1 p.2 q hq' with hq'' | hq''
      · exact Or.inl hq''
      · exact Or.inr (hq'' ▸ List.mem_cons_self p d)
    · exact Or.inr (List.mem_cons_of_mem p hq')

theorem lastVal_append (d₁ d₂ : Obj α) (k : String) :
    lastVal (d₁ ++ d₂) k = (lastVal d₂ k).or (lastVal d₁ k) := by
  induction d₁ with
  | nil => rw [List.nil_append]; exact (Option.or_none).symm
  | cons p d₁ ih =>
    show (lastVal (d₁ ++ d₂) k).or _ = _
    rw [ih, Option.or_assoc]
    rfl

theorem filter_key_eq_nil {m : Obj α} {a : String} (h : a ∉ keysOf m) :
    m.filter (fun q => q.1 == a) = [] := by
  induction m with
  | nil => rfl
  | cons p m ih =>
    simp only [keysOf, List.map_cons, List.mem_cons, not_or] at h
    have hcond : ¬((p.1 == a) = true) := by
      intro hc
      have hp : p.1 = a := by simpa using hc
      exact h.1 hp.symm
    rw [List.filter_cons, if_neg hcond]
    exact ih (by simpa [keysOf] using h.2)

theorem filter_key_of_lookup {m : Obj α} {a : String} {s : α}
    (hnd : (keysOf m).Nodup) (hl : lookupObj m a = some s) :
    m.filter (fun q => q.1 == a) = [(a, s)] := by
  induction m with
  | nil => simp [lookupObj] at hl
  | cons p m ih =>
    simp only [keysOf, List.map_cons, List.nodup_cons] at hnd
    rw [lookupObj_cons] at hl
    rw [List.filter_cons]
    by_cases hk : (p.1 == a) = true
    · rw [if_pos hk] at hl ⊢
      have hp1 : p.1 = a := by simpa using hk
      have hps : p = (a, s) := by
        cases p with
        | mk x y =>
        simp only at hp1
        simp only [Option.some_inj] at hl
        rw [hp1, hl]
      rw [hps, filter_key_eq_nil (by rw [← hp1]; simpa [keysOf] using hnd.1)]
    · rw [if_neg hk] at hl ⊢
      exact ih hnd.2 hl

theorem nodup_keys_dedupe_map (rs : List ResourceWithTags) :
    (keysOf (objSpread ([] : Obj ResourceWithTags) (rs.map toArnPair))).Nodup :=
  nodup_keysOf_objSpread (rs.map toArnPair) List.nodup_nil

theorem entries_dedupe_map (rs : List ResourceWithTags) :
    ∀ q ∈ objSpread ([] : Obj ResourceWithTags) (rs.map toArnPair),
      q.1 = q.2.resourceArn := by
  intro q hq
  rcases mem_objSpread_cases _ _ q hq with hq' | hq'
  · cases hq'
  · obtain ⟨r, _, hr⟩ := List.mem_map.mp hq'
    rw [← hr]
    rfl

theorem filter_values_eq_filter_keys {a : String} (m : Obj ResourceWithTags)
    (h : ∀ q ∈ m, q.1 = q.2.resourceArn) :
    (m.map Prod.snd).filter (fun r => r.resourceArn == a)
      = (m.filter (fun q => q.1 == a)).map Prod.snd := by
  induction m with
  | nil => rfl
  | cons q m ih =>
    have hq := h q (List.mem_cons_self q m)
    rw [List.map_cons, List.filter_cons, List.filter_cons]
    by_cases hk : (q.2.resourceArn == a) = true
    · rw [if_pos hk, if_pos (by rw [hq]; exact hk)]
      rw [List.map_cons, ih (fun q' hq' => h q' (List.mem_cons_of_mem q hq'))]
    · rw [if_neg hk, if_neg (by rw [hq]; exact hk)]
      exact ih (fun q' hq' => h q' (List.mem_cons_of_mem q hq'))

end AggLemmas

/-- C3: per-locality aggregation keeps exactly one record per identity,
namely the last-layered one; since specific discoverers are concatenated
after the generic Tagging-API discoverer, a specific record with the same
ARN as a generic one is the one kept. -/
theorem aggregation_specific_wins (generic specific : List ResourceWithTags)
    (a : String) (s : ResourceWithTags)
    (hlast : lastRecordWith specific a = some s) :
    (dedupeByArn (generic ++ specific)).filter (fun r => r.resourceArn == a) = [s] := by
  rw [dedupeByArn_eq_spread]
  set l := (generic ++ specific).map toArnPair with hl
  have hentries : ∀ q ∈ objSpread ([] : Obj ResourceWithTags) l, q.1 = q.2.resourceArn :=
    entries_dedupe_map (generic ++ specific)
  rw [filter_values_eq_filter_keys _ hentries]
  have hnd : (keysOf (objSpread ([] : Obj ResourceWithTags) l)).Nodup :=
    nodup_keys_dedupe_map (generic ++ specific)
  have hlook : lookupObj (objSpread ([] : Obj ResourceWithTags) l) a = some s := by
    rw [lookupObj_objSpread]
    have hsplit : l = generic.map toArnPair ++ specific.map toArnPair := by
      rw [hl, List.map_append]
    rw [hsplit, lastVal_append]
    unfold lastRecordWith at hlast
    rw [hlast]
    rfl
  rw [filter_key_of_lookup hnd hlook]
  rfl

theorem aggregation_specific_wins_witness :
    (lastRecordWith
        [⟨"A", some "s1", "ec2", [("x", "1")], "r1"⟩] "A"
      = some ⟨"A", some "s1", "ec2", [("x", "1")], "r1"⟩) ∧
    (dedupeByArn
        ([⟨"A", none, "generic", [("x", "1")], "r1"⟩]
          ++ [⟨"A", some "s1", "ec2", [("x", "1")], "r1"⟩])).filter
        (fun r => r.resourceArn == "A")
      = [⟨"A", some "s1", "ec2", [("x", "1")], "r1"⟩] :=
  ⟨by decide,
    aggregation_specific_wins
      [⟨"A", none, "generic", [("x", "1")], "r1"⟩]
      [⟨"A", some "s1", "ec2", [("x", "1")], "r1"⟩]
      "A" ⟨"A", some "s1", "ec2", [("x", "1")], "r1"⟩ (by decide)⟩

/-- C4 counterexample: when the global S3 discoverer and one region's
generic Tagging-API discoverer both observe the same ARN, the run-wide
inventory holds TWO records with that identity — the global lists and the
per-region maps are concatenated without cross-deduplication. -/
theorem runWideInventory_duplicate_identity :
    List.countP (fun r => r.resourceArn == "arn:aws:s3:::b1")
      (getAllResources [] [] [] [cexS3Record] ["us-east-1"]
        (fun _ => { RegionOutputs.empty with taggingApiResources := [cexTaggingApiRecord] }))
      = 2 := by
  decide

/-- C4 amended: identity is unique within each region's contribution (the
per-region `Map` values have pairwise-distinct ARNs), but the run-wide
concatenation of the global lists and the per-region maps performs no
further de-duplication. -/
theorem perRegion_identity_unique (rs : List ResourceWithTags) :
    ((dedupeByArn rs).map (fun r => r.resourceArn)).Nodup := by
  rw [dedupeByArn_eq_spread, List.map_map]
  have hentries := entries_dedupe_map rs
  have hmapeq : (objSpread ([] : Obj ResourceWithTags) (rs.map toArnPair)).map
        ((fun r => r.resourceArn) ∘ Prod.snd)
      = keysOf (objSpread ([] : Obj ResourceWithTags) (rs.map toArnPair)) := by
    unfold keysOf
    exact List.map_congr_left (fun q hq => (hentries q hq).symm)
  rw [hmapeq]
  exact nodup_keys_dedupe_map rs

theorem tagAttemptLoop_length_le (outcome : Nat → Bool) (fuel attempt : Nat) :
    (tagAttemptLoop outcome fuel attempt).2.length ≤ fuel := by
  induction fuel generalizing attempt with
  | zero => exact Nat.le_refl 0
  | succ fuel ih =>
    unfold tagAttemptLoop
    by_cases h1 : outcome attempt
    · rw [if_pos h1]
      simp
    · rw [if_neg h1]
      by_cases h2 : fuel = 0
      · rw [if_pos h2]
        simp
      · rw [if_neg h2]
        simpa using Nat.succ_le_succ (ih (attempt + 1))

theorem tagAttemptLoop_first_success (outcome : Nat → Bool) (fuel attempt n : Nat)
    (hle : attempt ≤ n) (hlt : n < attempt + fuel)
    (hn : outcome n = true) (hbefore : ∀ m, attempt ≤ m → m < n → outcome m = false) :
    tagAttemptLoop outcome fuel attempt = (true, List.range' attempt (n + 1 - attempt)) := by
  induction fuel generalizing attempt with
  | zero => omega
  | succ fuel ih =>
    unfold tagAttemptLoop
    by_cases h1 : outcome attempt
    · rw [if_pos h1]
      have hna : n = attempt := by
        by_contra hne
        exact absurd h1 (by rw [hbefore attempt (Nat.le_refl _) (by omega)]; simp)
      rw [hna]
      have : attempt + 1 - attempt = 1 := by omega
      rw [this]
      rfl
    · have hna : attempt ≠ n := fun hc => absurd (hc ▸ h1) (by rw [hn]; simp)
      have hlt' : attempt < n := Nat.lt_of_le_of_ne hle hna
      have hfuel : fuel ≠ 0 := by
        intro hc
        rw [hc] at hlt
        omega
      rw [if_neg h1, if_neg hfuel]
      rw [ih (attempt + 1) hlt' (by omega) (fun m hm1 hm2 => hbefore m (by omega) hm2)]
      have hrange : List.range' attempt (n + 1 - attempt)
          = attempt :: List.range' (attempt + 1) (n + 1 - (attempt + 1)) := by
        have hsplit : n + 1 - attempt = (n + 1 - (attempt + 1)) + 1 := by omega
        rw [hsplit, List.range'_succ]
      rw [hrange]

theorem tagAttemptLoop_all_fail (outcome : Nat → Bool) (fuel attempt : Nat)
    (hfail : ∀ m, outcome m = false) (hfuel : 0 < fuel) :
    tagAttemptLoop outcome fuel attempt
      = (false, List.range' attempt fuel) := by
  induction fuel generalizing attempt with
  | zero => omega
  | succ fuel ih =>
    unfold tagAttemptLoop
    rw [if_neg (by rw [hfail attempt]; simp)]
    by_cases h2 : fuel = 0
    · rw [if_pos h2, h2]
      rfl
    · rw [if_neg h2, ih (attempt + 1) (Nat.pos_of_ne_zero h2)]
      rw [List.range'_succ]

/-- C5: with the default `retries = 3`, the dispatch is invoked at most 3
times; an always-failing operation is attempted exactly on attempts
1,2,3 and reported failed; an operation succeeding first on attempt `n ≤ 3`
is attempted exactly on 1..n (never again after `n`) and reported
succeeded — in particular fail-fail-succeed gives exactly 3 attempts and
success.  The `false` result is what `processAllResources` records as a
failed outcome; it is returned, not thrown. -/
theorem tagResource_retry_bound (outcome : Nat → Bool) :
    ((tagResource outcome).2.length ≤ 3) ∧
    ((∀ m, outcome m = false) → tagResource outcome = (false, [1, 2, 3])) ∧
    (∀ n, 1 ≤ n → n ≤ 3 → outcome n = true → (∀ m, 1 ≤ m → m < n → outcome m = false) →
      tagResource outcome = (true, List.range' 1 n)) := by
  refine ⟨tagAttemptLoop_length_le outcome 3 1, ?_, ?_⟩
  · intro hfail
    have h := tagAttemptLoop_all_fail outcome 3 1 hfail (by omega)
    rw [tagResource, tagResourceRetries, h]
    rfl
  · intro n h1 h3 hn hbefore
    have h := tagAttemptLoop_first_success outcome 3 1 n h1 (by omega) hn hbefore
    rw [tagResource, tagResourceRetries, h]
    have : n + 1 - 1 = n := by omega
    rw [this]

theorem tagResource_retry_bound_witness :
    ((fun m => decide (3 ≤ m)) 3 = true) ∧
    tagResource (fun m => decide (3 ≤ m)) = (true, [1, 2, 3]) ∧
    tagResource (fun _ => false) = (false, [1, 2, 3]) := by
  refine ⟨by decide, ?_, ?_⟩
  · have h := (tagResource_retry_bound (fun m => decide (3 ≤ m))).2.2 3
      (by decide) (by decide) (by decide)
      (fun m hm1 hm2 => by
        have : ¬(3 ≤ m) := by omega
        simpa using this)
    rw [h]
    rfl
  · exact (tagResource_retry_bound (fun _ => false)).2.1 (fun m => rfl)

/-- C6 counterexample: a region-listing call that returns no usable data
(an empty region list) does NOT abort the run — global discovery still
contributes, tagging proceeds, and a summary is produced with exit 0. -/
theorem emptyRegionList_not_fatal :
    processAllResources (.ok []) [] [] [] [cexS3Record]
        (fun _ => RegionOutputs.empty) (fun _ _ => true)
      = .summary 1 0 [] := by
  decide

/-- C6 amended: the run is aborted with exit status 1 — no discovery
result, no summary — exactly when the region-listing call errors (the
exception propagates from `getAllRegions` to the top-level catch); an
empty region list is non-fatal. -/
theorem regionEnumeration_error_fatal (msg : String)
    (iamRoles iamUsers iamPolicies s3Buckets : List ResourceWithTags)
    (fetchRegion : String → RegionOutputs)
    (tagOutcome : ResourceWithTags → Nat → Bool) :
    processAllResources (.error msg) iamRoles iamUsers iamPolicies s3Buckets
      fetchRegion tagOutcome = .aborted 1 := rfl

/-- C8 counterexample: a run that aborts nowhere but discovers an empty
inventory takes the `resourcesToTag.length === 0` early return and never
reaches the summary block. -/
theorem emptyInventory_no_summary :
    processAllResources (.ok ["us-east-1"]) [] [] [] []
        (fun _ => RegionOutputs.empty) (fun _ _ => true)
      = .completedNoSummary := by
  decide

/-- C8 amended: every non-aborted run whose discovered inventory is
non-empty emits the final summary; with an empty inventory the process
logs "All resources are already properly tagged!" and exits without the
summary block. -/
theorem summary_emitted_when_nonempty (regions : List String)
    (iamRoles iamUsers iamPolicies s3Buckets : List ResourceWithTags)
    (fetchRegion : String → RegionOutputs)
    (tagOutcome : ResourceWithTags → Nat → Bool)
    (h : (getAllResources iamRoles iamUsers iamPolicies s3Buckets regions
      fetchRegion).length ≠ 0) :
    ∃ s f e, processAllResources (.ok regions) iamRoles iamUsers iamPolicies s3Buckets
      fetchRegion tagOutcome = .summary s f e := by
  unfold processAllResources
  simp only [tagExistingResourcesWithTags, if_true]
  rw [if_neg h]
  exact ⟨_, _, _, rfl⟩

theorem summary_emitted_when_nonempty_witness :
    ((getAllResources [] [] [] [cexS3Record] []
        (fun _ => RegionOutputs.empty)).length ≠ 0) ∧
    ∃ s f e, processAllResources (.ok []) [] [] [] [cexS3Record]
        (fun _ => RegionOutputs.empty) (fun _ _ => false) = .summary s f e :=
  ⟨by decide, summary_emitted_when_nonempty [] [] [] [] [cexS3Record]
    (fun _ => RegionOutputs.empty) (fun _ _ => false) (by decide)⟩

/-- C7 counterexample: a listing failure mid-pagination does NOT make the
discoverer contribute an empty result — the records accumulated before
the failure are returned. -/
theorem discovererFailure_partial_result :
    getEC2Instances cexMidFailFetch "r1" "123" 2 none []
      = [mkEC2Record "r1" "123" cexRunningInstance] := by
  decide

/-- C7 amended: a discoverer's listing failure is non-fatal — it returns
normally with the records accumulated before the failure (empty exactly
when the first call fails), and the records every other region's
discoverers produced still reach the final inventory unaffected. -/
theorem discovererFailure_nonfatal_isolated :
    (∀ (fetch : Option Nat → EC2Page) (region accountId : String)
        (fuel : Nat) (tok : Option Nat),
      fetch tok = .err →
      getEC2Instances fetch region accountId (fuel + 1) tok [] = []) ∧
    (∀ (fetch : Option Nat → EC2Page) (region accountId : String) (fuel : Nat)
        (tok : Option Nat) (reservations : List Reservation) (t : Nat),
      fetch tok = .ok reservations (some t) → fetch (some t) = .err →
      getEC2Instances fetch region accountId (fuel + 2) tok []
        = processReservations region accountId reservations) ∧
    (∀ (iamRoles iamUsers iamPolicies s3Buckets : List ResourceWithTags)
        (regions : List String) (fetchRegion : String → RegionOutputs)
        (x : String) (rec : ResourceWithTags),
      x ∈ regions → rec ∈ dedupeByArn (fetchRegion x).concatenated →
      rec ∈ getAllResources iamRoles iamUsers iamPolicies s3Buckets regions fetchRegion) := by
  refine ⟨?_, ?_, ?_⟩
  · intro fetch region accountId fuel tok herr
    unfold getEC2Instances
    rw [herr]
  · intro fetch region accountId fuel tok reservations t hok herr
    unfold getEC2Instances
    rw [hok]
    unfold getEC2Instances
    rw [herr]
    rw [List.nil_append]
  · intro iamRoles iamUsers iamPolicies s3Buckets regions fetchRegion x rec hx hrec
    unfold getAllResources
    refine List.mem_append.mpr (Or.inr ?_)
    exact List.mem_flatten.mpr
      ⟨dedupeByArn (fetchRegion x).concatenated, List.mem_map.mpr ⟨x, hx, rfl⟩, hrec⟩

theorem discovererFailure_nonfatal_isolated_witness :
    ((fun _ : Option Nat => EC2Page.err) none = EC2Page.err ∧
      getEC2Instances (fun _ => EC2Page.err) "r1" "123" 1 none [] = []) ∧
    ("r2" ∈ ["r1", "r2"] ∧
      cexS3Record ∈ dedupeByArn
        ({ RegionOutputs.empty with ec2Instances := [cexS3Record] } : RegionOutputs).concatenated ∧
      cexS3Record ∈ getAllResources [] [] [] [] ["r1", "r2"]
        (fun r => if r = "r2" then
          { RegionOutputs.empty with ec2Instances := [cexS3Record] }
          else RegionOutputs.empty)) := by
  constructor
  · exact ⟨rfl, discovererFailure_nonfatal_isolated.1 (fun _ => EC2Page.err) "r1" "123" 0 none rfl⟩
  · refine ⟨by decide, by decide, ?_⟩
    exact discovererFailure_nonfatal_isolated.2.2 [] [] [] [] ["r1", "r2"]
      (fun r => if r = "r2" then
        { RegionOutputs.empty with ec2Instances := [cexS3Record] }
        else RegionOutputs.empty)
      "r2" cexS3Record (by decide) (by decide)

theorem processReservations_mem (region accountId : String)
    (reservations : List Reservation) (r : ResourceWithTags)
    (h : r ∈ processReservations region accountId reservations) :
    ∃ i : EC2Instance, keepInstance i = true ∧ r = mkEC2Record region accountId i ∧
      i ∈ reservations.flatMap (fun rv => rv.instances) := by
  unfold processReservations at h
  obtain ⟨i, hi, hr⟩ := List.mem_filterMap.mp h
  by_cases hkeep : keepInstance i = true
  · rw [if_pos hkeep] at hr
    exact ⟨i, hkeep, (Option.some_inj.mp hr).symm, hi⟩
  · rw [if_neg hkeep] at hr
    cases hr

theorem getEC2Instances_mem (fetch : Option Nat → EC2Page)
    (region accountId : String) (fuel : Nat) :
    ∀ (tok : Option Nat) (acc : List ResourceWithTags) (r : ResourceWithTags),
      r ∈ getEC2Instances fetch region accountId fuel tok acc →
      r ∈ acc ∨ ∃ i : EC2Instance, keepInstance i = true ∧
        r = mkEC2Record region accountId i ∧
        ∃ t reservations next, fetch t = .ok reservations next ∧
          i ∈ reservations.flatMap (fun rv => rv.instances) := by
  induction fuel with
  | zero => exact fun tok acc r h => Or.inl h
  | succ fuel ih =>
    intro tok acc r h
    unfold getEC2Instances at h
    cases hfetch : fetch tok with
    | err =>
      rw [hfetch] at h
      exact Or.inl h
    | ok reservations next =>
      rw [hfetch] at h
      have hpage : ∀ r', r' ∈ acc ++ processReservations region accountId reservations →
          r' ∈ acc ∨ ∃ i : EC2Instance, keepInstance i = true ∧
            r' = mkEC2Record region accountId i ∧
            ∃ t reservations' next', fetch t = .ok reservations' next' ∧
              i ∈ reservations'.flatMap (fun rv => rv.instances) := by
        intro r' hr'
        rcases List.mem_append.mp hr' with hr' | hr'
        · exact Or.inl hr'
        · obtain ⟨i, hkeep, heq, hmem⟩ :=
            processReservations_mem region accountId reservations r' hr'
          exact Or.inr ⟨i, hkeep, heq, tok, reservations, next, hfetch, hmem⟩
      cases next with
      | none => exact hpage r h
      | some t =>
        rcases ih (some t) (acc ++ processReservations region accountId reservations) r h
          with h' | h'
        · exact hpage r h'
        · exact Or.inr h'

/-- C10: EC2 instance discovery never returns a record for a terminated
instance — the guard drops every instance whose state is "terminated",
and every record the pagination loop returns originates from an instance
that passed the guard (listed by the provider, truthy id, state not
"terminated"). -/
theorem ec2_terminated_excluded :
    (∀ i : EC2Instance, i.stateName = some "terminated" → keepInstance i = false) ∧
    (∀ (fetch : Option Nat → EC2Page) (region accountId : String)
        (fuel : Nat) (tok : Option Nat) (r : ResourceWithTags),
      r ∈ getEC2Instances fetch region accountId fuel tok [] →
      ∃ i : EC2Instance, i.stateName ≠ some "terminated" ∧ strTruthy i.instanceId = true ∧
        r = mkEC2Record region accountId i ∧
        ∃ t reservations next, fetch t = .ok reservations next ∧
          i ∈ reservations.flatMap (fun rv => rv.instances)) := by
  constructor
  · intro i hterm
    unfold keepInstance
    rw [hterm]
    simp
  · intro fetch region accountId fuel tok r h
    rcases getEC2Instances_mem fetch region accountId fuel tok [] r h with h' | h'
    · cases h'
    · obtain ⟨i, hkeep, heq, hprov⟩ := h'
      unfold keepInstance at hkeep
      rw [Bool.and_eq_true] at hkeep
      refine ⟨i, ?_, hkeep.1, heq, hprov⟩
      intro hterm
      rw [hterm] at hkeep
      simpa using hkeep.2

theorem ec2_terminated_excluded_witness :
    ((⟨some "i-2", some "terminated", []⟩ : EC2Instance).stateName = some "terminated" ∧
      keepInstance ⟨some "i-2", some "terminated", []⟩ = false) ∧
    (mkEC2Record "r1" "123" cexRunningInstance
        ∈ getEC2Instances cexMidFailFetch "r1" "123" 2 none [] ∧
      ∃ i : EC2Instance, i.stateName ≠ some "terminated" ∧ strTruthy i.instanceId = true ∧
        mkEC2Record "r1" "123" cexRunningInstance = mkEC2Record "r1" "123" i ∧
        ∃ t reservations next, cexMidFailFetch t = .ok reservations next ∧
          i ∈ reservations.flatMap (fun rv => rv.instances)) := by
  constructor
  · exact ⟨rfl, ec2_terminated_excluded.1 ⟨some "i-2", some "terminated", []⟩ rfl⟩
  · refine ⟨by decide, ?_⟩
    exact ec2_terminated_excluded.2 cexMidFailFetch "r1" "123" 2 none
      (mkEC2Record "r1" "123" cexRunningInstance) (by decide)

/-- C9 counterexample: when the first fetch fails, nothing is cached —
the next call fetches AGAIN (two provider fetches, not one), and it
returns a different value than the first call did. -/
theorem accountId_refetched_after_failure :
    runGetAccountId cexStsProvider 2 none 0
      = (["unknown", "123456789012"], some "123456789012", 2) := by
  decide

theorem jsOrUnknown_truthy (account : Option String) :
    strTruthy (some (jsOrUnknown account)) = true := by
  cases account with
  | none => decide
  | some s =>
    simp only [jsOrUnknown]
    by_cases h : (s == "") = true
    · rw [if_pos h]
      decide
    · rw [if_neg h]
      have hf : (s == "") = false := Bool.eq_false_iff.mpr h
      simp [strTruthy, hf]

theorem runGetAccountId_cached (provider : Nat → Except Unit (Option String))
    (calls : Nat) (a : String) (fetches : Nat) (h : strTruthy (some a) = true) :
    runGetAccountId provider calls (some a) fetches
      = (List.replicate calls a, some a, fetches) := by
  induction calls generalizing fetches with
  | zero => rfl
  | succ calls ih =>
    unfold runGetAccountId getAccountIdStep
    rw [if_pos h]
    show ((some a).getD "unknown" :: (runGetAccountId provider calls (some a) fetches).1,
        (runGetAccountId provider calls (some a) fetches).2)
      = (List.replicate (calls + 1) a, some a, fetches)
    rw [ih fetches]
    rfl

/-- C9 amended: the cache is single-assignment only along successful
fetches — if the FIRST fetch succeeds, exactly one provider fetch happens
over any number of sequential calls and every call returns the cached
value; but a failed fetch caches nothing, so the next call fetches again
(and concurrent in-flight calls each fetch, the model being sequential). -/
theorem accountId_memoized_after_success
    (provider : Nat → Except Unit (Option String)) (account : Option String)
    (calls : Nat) (h0 : provider 0 = .ok account) (hpos : 0 < calls) :
    (runGetAccountId provider calls none 0).2.2 = 1 ∧
    ∀ v ∈ (runGetAccountId provider calls none 0).1, v = jsOrUnknown account := by
  cases calls with
  | zero => omega
  | succ calls =>
    have hrun : runGetAccountId provider (calls + 1) none 0
        = (jsOrUnknown account :: List.replicate calls (jsOrUnknown account),
            some (jsOrUnknown account), 1) := by
      unfold runGetAccountId getAccountIdStep
      rw [h0]
      show (jsOrUnknown account ::
          (runGetAccountId provider calls (some (jsOrUnknown account)) 1).1,
        (runGetAccountId provider calls (some (jsOrUnknown account)) 1).2)
        = (jsOrUnknown account :: List.replicate calls (jsOrUnknown account),
            some (jsOrUnknown account), 1)
      rw [runGetAccountId_cached provider calls (jsOrUnknown account) 1
        (jsOrUnknown_truthy account)]
    rw [hrun]
    refine ⟨rfl, ?_⟩
    intro v hv
    rcases List.mem_cons.mp hv with hv | hv
    · exact hv
    · exact List.eq_of_mem_replicate hv

theorem accountId_memoized_after_success_witness :
    ((fun _ : Nat => (Except.ok (some "42") : Except Unit (Option String))) 0
        = .ok (some "42")) ∧ 0 < 2 ∧
    ((runGetAccountId (fun _ => .ok (some "42")) 2 none 0).2.2 = 1 ∧
      ∀ v ∈ (runGetAccountId (fun _ => .ok (some "42")) 2 none 0).1,
        v = jsOrUnknown (some "42")) :=
  ⟨rfl, by decide,
    accountId_memoized_after_success (fun _ => .ok (some "42")) (some "42") 2 rfl (by decide)⟩
